import Mathlib

/-!
Verification of the upstream-cluster membership and health model
(include/envoy/upstream/upstream.h, source/common/ratelimit/ratelimit_impl.cc).

The header declares pure-virtual interfaces; where a concrete implementation
is not part of the tree, the corresponding definition below is modelled from
the specification and marked as such in its doc comment.
-/

namespace Envoy

namespace Upstream

/-- Health flags from `Host::HealthFlag` in include/envoy/upstream/upstream.h. -/
inductive HealthFlag where
  | FAILED_ACTIVE_HC
  | FAILED_OUTLIER_CHECK
  deriving DecidableEq, Repr

/-- Numeric values of the flags as given by the source enum:
`FAILED_ACTIVE_HC = 0x1`, `FAILED_OUTLIER_CHECK = 0x02`. -/
def HealthFlag.value : HealthFlag → Nat
  | .FAILED_ACTIVE_HC => 0x1
  | .FAILED_OUTLIER_CHECK => 0x02

/-- Modelled from the spec: `Host::healthFlagSet`, an atomic bitwise set of one
flag bit in the host's health bitmask (the concrete Host implementation is not
part of the source tree, only its interface). -/
def healthFlagSet (mask : Nat) (f : HealthFlag) : Nat :=
  mask ||| f.value

/-- Modelled from the spec: `Host::healthFlagClear`, an atomic bitwise clear of
one flag bit in a 64-bit health bitmask. -/
def healthFlagClear (mask : Nat) (f : HealthFlag) : Nat :=
  mask &&& ((2 ^ 64 - 1) ^^^ f.value)

/-- Modelled from the spec: `Host::healthFlagGet`, true iff the flag bit is set
in the health bitmask. -/
def healthFlagGet (mask : Nat) (f : HealthFlag) : Bool :=
  mask &&& f.value != 0

/-- Modelled from the spec: `Host::healthy()` is a pure function of the current
flag bitmask, true iff no exclusion flag is set. -/
def healthy (mask : Nat) : Bool :=
  !healthFlagGet mask .FAILED_ACTIVE_HC && !healthFlagGet mask .FAILED_OUTLIER_CHECK

/-- The flag states reachable from the all-clear initial bitmask by the atomic
set/clear operations. -/
inductive ReachableMask : Nat → Prop where
  | base : ReachableMask 0
  | set (m f) : ReachableMask m → ReachableMask (healthFlagSet m f)
  | clear (m f) : ReachableMask m → ReachableMask (healthFlagClear m f)

/-- An upstream host as the HostSet model needs it: immutable identity
(address), its locality key, and the mutable health-flag bitmask. -/
structure Host where
  address : String
  locality : String
  healthFlags : Nat
  deriving DecidableEq, Repr

/-- `Host::healthy()` lifted to the modelled host: pure function of the
current flag bitmask. -/
def Host.healthy (h : Host) : Bool :=
  Upstream.healthy h.healthFlags

/-- Modelled from the spec: the locality keys other than the local one that
occur in the host list, sorted lexicographically (these fill indices 1.. of
the by-locality partition). -/
def localityKeys (localKey : String) (hs : List Host) : List String :=
  Finset.sort (· ≤ ·) ((hs.map Host.locality).filter (fun k => !(k == localKey))).toFinset

/-- The hosts of one locality, in host-list order. -/
def hostsOfLocality (k : String) (hs : List Host) : List Host :=
  hs.filter (fun h => h.locality == k)

/-- Modelled from the spec: the update algorithm's by-locality partition —
local locality fixed at index 0 (an empty slot if no local host exists),
remaining localities sorted lexicographically from index 1. -/
def hostsPerLocality (localKey : String) (hs : List Host) : List (List Host) :=
  hostsOfLocality localKey hs ::
    (localityKeys localKey hs).map (fun k => hostsOfLocality k hs)

/-- Modelled from the spec: the healthy subset of a host list, filtered by
`healthy()`. -/
def healthyHosts (hs : List Host) : List Host :=
  hs.filter Host.healthy

/-- One published HostSet snapshot: the four co-published views plus the
publication generation. -/
structure Snapshot where
  gen : Nat
  hosts : List Host
  healthyHosts : List Host
  hostsPerLocality : List (List Host)
  healthyHostsPerLocality : List (List Host)
  deriving DecidableEq, Repr

/-- Modelled from the spec: the HostSet update algorithm — compute the new
full host list, filter the healthy subset by `healthy()`, partition both by
locality, and publish all four views as one composite. -/
def buildSnapshot (localKey : String) (hs : List Host) (g : Nat) : Snapshot where
  gen := g
  hosts := hs
  healthyHosts := Upstream.healthyHosts hs
  hostsPerLocality := Upstream.hostsPerLocality localKey hs
  healthyHostsPerLocality := Upstream.hostsPerLocality localKey (Upstream.healthyHosts hs)

/-- Modelled from the spec: the hosts a membership update reports as added —
the set difference of host identities, new full list minus previous full
list. -/
def hostsAdded (oldHosts newHosts : List Host) : List Host :=
  newHosts.filter fun h => decide (h ∉ oldHosts)

/-- Modelled from the spec: the hosts a membership update reports as removed —
previous full list minus new full list. -/
def hostsRemoved (oldHosts newHosts : List Host) : List Host :=
  oldHosts.filter fun h => decide (h ∉ newHosts)

/-- The member-update callback registry: handle ids paired with the tombstone
bit set when the handle is de-registered. -/
abbrev CbRegistry := List (Nat × Bool)

/-- Modelled from the spec: one membership update invokes every registered,
non-tombstoned callback synchronously with the (added, removed) diff; the
result lists each invocation as (handle id, added, removed). -/
def notifyMembers (reg : CbRegistry) (oldHosts newHosts : List Host) :
    List (Nat × List Host × List Host) :=
  (reg.filter fun e => !e.2).map
    fun e => (e.1, hostsAdded oldHosts newHosts, hostsRemoved oldHosts newHosts)

/-- Modelled from the spec: de-registration tombstones every named entry of
the registry rather than physically erasing it. -/
def cancelIds (reg : CbRegistry) (ids : List Nat) : CbRegistry :=
  reg.map fun e => if e.1 ∈ ids then (e.1, true) else e

/-- Modelled from the spec: one step of a notification round at handle `j` —
when `j`'s entry is present and not tombstoned, its callback runs, which logs
the invocation and tombstones whatever handles that callback cancels
(`effect j`); otherwise the entry is skipped. -/
def roundStep (effect : Nat → List Nat) (st : CbRegistry × List Nat) (j : Nat) :
    CbRegistry × List Nat :=
  match st.1.lookup j with
  | some false => (cancelIds st.1 (effect j), st.2 ++ [j])
  | _ => st

/-- Processing a worklist of handle ids from a given registry/log state. -/
def runIds (effect : Nat → List Nat) (st : CbRegistry × List Nat)
    (ids : List Nat) : CbRegistry × List Nat :=
  ids.foldl (roundStep effect) st

/-- Modelled from the spec: a full notification round visits every entry of
the registry in order, skipping tombstoned entries. -/
def runRound (effect : Nat → List Nat) (reg : CbRegistry) : CbRegistry × List Nat :=
  runIds effect (reg, []) (reg.map Prod.fst)

/-- Cluster initialization lifecycle states, as in the spec's state machine. -/
inductive InitState where
  | Uninit
  | Initializing
  | Initialized
  deriving DecidableEq, Repr

/-- Modelled from the spec: the lifecycle-relevant state of a Cluster — the
phase of the initialization state machine, the registered not-yet-fired
one-shot callbacks (by handle id, in registration order) and the log of fired
callback invocations. -/
structure ClusterState where
  phase : InitState
  pending : List Nat
  fired : List Nat
  deriving DecidableEq, Repr

/-- The events driving the cluster lifecycle: the one `initialize()` call,
the first successful membership resolution, later membership churn, and
`setInitializedCb` registrations. -/
inductive ClusterEvent where
  | initCall
  | resolved
  | membershipChange
  | registerCb (id : Nat)
  deriving DecidableEq, Repr

/-- Modelled from the spec: the cluster lifecycle transition function.
`initialize()` moves Uninit to Initializing; the first successful membership
resolution moves Initializing to the terminal Initialized state and fires all
pending one-shot callbacks; membership churn changes nothing; a callback
registered after Initialized fires immediately, otherwise it is queued. -/
def clusterStep (st : ClusterState) (e : ClusterEvent) : ClusterState :=
  match e with
  | .initCall =>
      match st.phase with
      | .Uninit => { st with phase := .Initializing }
      | _ => st
  | .resolved =>
      match st.phase with
      | .Initializing =>
          { phase := .Initialized, pending := [], fired := st.fired ++ st.pending }
      | _ => st
  | .membershipChange => st
  | .registerCb id =>
      match st.phase with
      | .Initialized => { st with fired := st.fired ++ [id] }
      | _ => { st with pending := st.pending ++ [id] }

/-- A run of the cluster lifecycle from the freshly constructed state. -/
def runCluster (events : List ClusterEvent) : ClusterState :=
  events.foldl clusterStep ⟨.Uninit, [], []⟩

/-- The callback handle id registered by an event, if any. -/
def eventRegId : ClusterEvent → List Nat
  | .registerCb id => [id]
  | _ => []

/-- The callback handle ids registered along a trace, in order. -/
def regIds (events : List ClusterEvent) : List Nat :=
  (events.map eventRegId).flatten

/-- A HostSet as the workers see it: the configured local locality key plus
the one currently published composite snapshot. -/
structure HostSetState where
  localKey : String
  current : Snapshot
  deriving DecidableEq, Repr

/-- The freshly constructed HostSet: an empty membership at generation 0. -/
def initialHostSet (localKey : String) : HostSetState :=
  ⟨localKey, buildSnapshot localKey [] 0⟩

/-- Modelled from the spec: an update step builds the four new views from the
new full host list and publishes them as one composite swap, advancing the
generation. -/
def publish (st : HostSetState) (newHosts : List Host) : HostSetState :=
  ⟨st.localKey, buildSnapshot st.localKey newHosts (st.current.gen + 1)⟩

/-- The HostSet states reachable from construction by update steps. -/
inductive ReachableHostSet : HostSetState → Prop where
  | base (localKey) : ReachableHostSet (initialHostSet localKey)
  | step (st newHosts) : ReachableHostSet st → ReachableHostSet (publish st newHosts)

/-- A read of `hosts()` together with the generation it came from. -/
def readHosts (st : HostSetState) : Nat × List Host :=
  (st.current.gen, st.current.hosts)

/-- A read of `healthyHosts()` together with the generation it came from. -/
def readHealthyHosts (st : HostSetState) : Nat × List Host :=
  (st.current.gen, st.current.healthyHosts)

/-- A read of `hostsPerLocality()` together with the generation it came from. -/
def readHostsPerLocality (st : HostSetState) : Nat × List (List Host) :=
  (st.current.gen, st.current.hostsPerLocality)

/-- A read of `healthyHostsPerLocality()` together with the generation it came
from. -/
def readHealthyHostsPerLocality (st : HostSetState) : Nat × List (List Host) :=
  (st.current.gen, st.current.healthyHostsPerLocality)

end Upstream

namespace RateLimit

/-- Modelled from the spec: the cluster manager is an excluded collaborator;
`ClusterManager::get(name)` yields a cluster only for known names. It is
modelled by its set of known cluster names. -/
structure ClusterManager where
  knownClusters : List String
  deriving DecidableEq, Repr

/-- The portion of `envoy::api::v2::RateLimitServiceConfig` read by
`GrpcFactoryImpl::GrpcFactoryImpl`: the referenced cluster name. -/
structure RateLimitServiceConfig where
  cluster_name : String
  deriving DecidableEq, Repr

/-- The configuration-error kind thrown by the constructor
(`EnvoyException` carrying its message). -/
structure EnvoyException where
  msg : String
  deriving DecidableEq, Repr

/-- The state a successfully constructed `GrpcFactoryImpl` holds:
the stored cluster name. -/
structure GrpcFactoryImpl where
  cluster_name : String
  deriving DecidableEq, Repr

/-- `GrpcFactoryImpl::GrpcFactoryImpl` from
source/common/ratelimit/ratelimit_impl.cc: stores the configured cluster name
and throws `EnvoyException` at construction time when the cluster manager does
not know that name. -/
def mkGrpcFactoryImpl (config : RateLimitServiceConfig) (cm : ClusterManager) :
    Except EnvoyException GrpcFactoryImpl :=
  if config.cluster_name ∈ cm.knownClusters then
    Except.ok ⟨config.cluster_name⟩
  else
    Except.error ⟨"unknown rate limit service cluster " ++ config.cluster_name⟩

end RateLimit

namespace Upstream

theorem ReachableMask.lt_four {m : Nat} (h : ReachableMask m) : m < 4 := by
  induction h with
  | base => decide
  | set m f _ ih =>
      unfold healthFlagSet
      cases f <;> simp only [HealthFlag.value] <;> interval_cases m <;> decide
  | clear m f _ ih =>
      calc healthFlagClear m f ≤ m := Nat.and_le_left
        _ < 4 := ih

/-- C1: for every reachable flag state, `healthy()` is true iff neither
`FAILED_ACTIVE_HC` nor `FAILED_OUTLIER_CHECK` is set in the bitmask, and
setting `FAILED_OUTLIER_CHECK` makes `healthy()` return false on the
immediately following call. -/
theorem healthy_iff_no_exclusion_flag (m : Nat) (h : ReachableMask m) :
    (healthy m = true ↔
      (healthFlagGet m HealthFlag.FAILED_ACTIVE_HC = false ∧
       healthFlagGet m HealthFlag.FAILED_OUTLIER_CHECK = false)) ∧
    healthy (healthFlagSet m HealthFlag.FAILED_OUTLIER_CHECK) = false := by
  have h4 := h.lt_four
  interval_cases m <;> exact ⟨by decide, by decide⟩

/-- Witness for C1 at the initial all-clear bitmask. -/
theorem healthy_iff_no_exclusion_flag_witness :
    (healthy 0 = true ↔
      (healthFlagGet 0 HealthFlag.FAILED_ACTIVE_HC = false ∧
       healthFlagGet 0 HealthFlag.FAILED_OUTLIER_CHECK = false)) ∧
    healthy (healthFlagSet 0 HealthFlag.FAILED_OUTLIER_CHECK) = false :=
  healthy_iff_no_exclusion_flag 0 ReachableMask.base

/-- C10: the two health flags occupy the distinct single bits 0x1 and 0x2, so
on every reachable bitmask, setting or clearing one flag leaves the other
flag's value unchanged, a get immediately after a set of the same flag returns
true, a get immediately after a clear returns false, and set and clear of the
same flag are idempotent. -/
theorem healthFlag_bit_algebra :
    (HealthFlag.value HealthFlag.FAILED_ACTIVE_HC = 1 ∧
     HealthFlag.value HealthFlag.FAILED_OUTLIER_CHECK = 2) ∧
    ∀ m : Nat, ReachableMask m →
      ∀ f g : HealthFlag, f ≠ g →
        healthFlagGet (healthFlagSet m f) g = healthFlagGet m g ∧
        healthFlagGet (healthFlagClear m f) g = healthFlagGet m g ∧
        healthFlagGet (healthFlagSet m f) f = true ∧
        healthFlagGet (healthFlagClear m f) f = false ∧
        healthFlagSet (healthFlagSet m f) f = healthFlagSet m f ∧
        healthFlagClear (healthFlagClear m f) f = healthFlagClear m f := by
  refine ⟨⟨rfl, rfl⟩, ?_⟩
  intro m hm f g hfg
  have h4 := hm.lt_four
  interval_cases m <;> cases f <;> cases g <;>
    first
      | exact absurd rfl hfg
      | decide

/-- Witness for C10 at the initial bitmask with the two distinct flags. -/
theorem healthFlag_bit_algebra_witness :
    healthFlagGet (healthFlagSet 0 HealthFlag.FAILED_ACTIVE_HC)
        HealthFlag.FAILED_OUTLIER_CHECK
      = healthFlagGet 0 HealthFlag.FAILED_OUTLIER_CHECK ∧
    healthFlagGet (healthFlagClear 0 HealthFlag.FAILED_ACTIVE_HC)
        HealthFlag.FAILED_OUTLIER_CHECK
      = healthFlagGet 0 HealthFlag.FAILED_OUTLIER_CHECK ∧
    healthFlagGet (healthFlagSet 0 HealthFlag.FAILED_ACTIVE_HC)
        HealthFlag.FAILED_ACTIVE_HC = true ∧
    healthFlagGet (healthFlagClear 0 HealthFlag.FAILED_ACTIVE_HC)
        HealthFlag.FAILED_ACTIVE_HC = false ∧
    healthFlagSet (healthFlagSet 0 HealthFlag.FAILED_ACTIVE_HC)
        HealthFlag.FAILED_ACTIVE_HC
      = healthFlagSet 0 HealthFlag.FAILED_ACTIVE_HC ∧
    healthFlagClear (healthFlagClear 0 HealthFlag.FAILED_ACTIVE_HC)
        HealthFlag.FAILED_ACTIVE_HC
      = healthFlagClear 0 HealthFlag.FAILED_ACTIVE_HC :=
  healthFlag_bit_algebra.2 0 ReachableMask.base
    HealthFlag.FAILED_ACTIVE_HC HealthFlag.FAILED_OUTLIER_CHECK (by decide)

theorem count_hostsOfLocality (a : Host) (k : String) (hs : List Host) :
    (hostsOfLocality k hs).count a = if a.locality = k then hs.count a else 0 := by
  by_cases h : a.locality = k
  · rw [if_pos h]
    exact List.count_filter (by simp [h])
  · rw [if_neg h]
    refine List.count_eq_zero.mpr ?_
    intro hmem
    rcases List.mem_filter.mp hmem with ⟨_, hp⟩
    simp only [beq_iff_eq] at hp
    exact h hp

theorem sum_map_ite_eq (x : String) (c : Nat) (keys : List String)
    (hnd : keys.Nodup) :
    (keys.map (fun k => if x = k then c else 0)).sum = if x ∈ keys then c else 0 := by
  induction keys with
  | nil => simp
  | cons k t ih =>
    rcases List.nodup_cons.mp hnd with ⟨hk, ht⟩
    simp only [List.map_cons, List.sum_cons, ih ht]
    by_cases hxk : x = k
    · subst hxk
      simp [hk]
    · simp [hxk, List.mem_cons]

theorem mem_localityKeys {k localKey : String} {hs : List Host} :
    k ∈ localityKeys localKey hs ↔ k ≠ localKey ∧ ∃ h, h ∈ hs ∧ h.locality = k := by
  simp only [localityKeys, Finset.mem_sort, List.mem_toFinset, List.mem_filter,
    List.mem_map]
  constructor
  · rintro ⟨⟨h, hmem, rfl⟩, hne⟩
    simp only [Bool.not_eq_true', beq_eq_false_iff_ne, ne_eq] at hne
    exact ⟨hne, h, hmem, rfl⟩
  · rintro ⟨hne, h, hmem, rfl⟩
    exact ⟨⟨h, hmem, rfl⟩, by simp [hne]⟩

theorem localityKeys_nodup (localKey : String) (hs : List Host) :
    (localityKeys localKey hs).Nodup :=
  Finset.sort_nodup _ _

theorem localityKeys_sorted (localKey : String) (hs : List Host) :
    List.Sorted (· < ·) (localityKeys localKey hs) :=
  Finset.sort_sorted_lt _

theorem count_flatten_hostsPerLocality (localKey : String) (hs : List Host)
    (a : Host) :
    ((hostsPerLocality localKey hs).flatten).count a = hs.count a := by
  have hkeysnd := localityKeys_nodup localKey hs
  rw [hostsPerLocality, List.flatten_cons, List.count_append, List.count_flatten,
    List.map_map]
  have hmap : (localityKeys localKey hs).map (List.count a ∘ fun k => hostsOfLocality k hs) =
      (localityKeys localKey hs).map (fun k => if a.locality = k then hs.count a else 0) := by
    apply List.map_congr_left
    intro k _
    simp only [Function.comp_apply]
    exact count_hostsOfLocality a k hs
  rw [hmap, sum_map_ite_eq _ _ _ hkeysnd, count_hostsOfLocality]
  by_cases hal : a.locality = localKey
  · have hnot : a.locality ∉ localityKeys localKey hs := by
      intro hmem
      exact (mem_localityKeys.mp hmem).1 hal
    rw [hal] at hnot ⊢
    simp [hnot]
  · simp only [if_neg hal, Nat.zero_add]
    by_cases hmem : a.locality ∈ localityKeys localKey hs
    · simp [hmem]
    · have hnotin : a ∉ hs := by
        intro hin
        exact hmem (mem_localityKeys.mpr ⟨hal, a, hin, rfl⟩)
      simp [hmem, List.count_eq_zero.mpr hnotin]

theorem hostsPerLocality_flatten_perm (localKey : String) (hs : List Host) :
    List.Perm (hostsPerLocality localKey hs).flatten hs :=
  List.perm_iff_count.mpr fun a => count_flatten_hostsPerLocality localKey hs a

/-- C2: in every published snapshot, flattening the by-locality partition as a
multiset equals the flat host list, same for the healthy variants, and the
healthy host list is contained in the full host list. -/
theorem snapshot_partition_multiset (localKey : String) (hs : List Host) (g : Nat) :
    (((buildSnapshot localKey hs g).hostsPerLocality.flatten : List Host) : Multiset Host) =
      ((buildSnapshot localKey hs g).hosts : Multiset Host) ∧
    (((buildSnapshot localKey hs g).healthyHostsPerLocality.flatten : List Host) : Multiset Host) =
      ((buildSnapshot localKey hs g).healthyHosts : Multiset Host) ∧
    ∀ h ∈ (buildSnapshot localKey hs g).healthyHosts, h ∈ (buildSnapshot localKey hs g).hosts := by
  refine ⟨?_, ?_, ?_⟩
  · exact Multiset.coe_eq_coe.mpr (hostsPerLocality_flatten_perm localKey hs)
  · exact Multiset.coe_eq_coe.mpr
      (hostsPerLocality_flatten_perm localKey (Upstream.healthyHosts hs))
  · intro h hmem
    exact (List.mem_filter.mp hmem).1

/-- C3: in every published snapshot, slot 0 of the by-locality partition holds
exactly the local-locality hosts and is present (as an empty slot when no
local host exists), and the remaining localities appear from index 1 sorted
lexicographically by locality key. -/
theorem hostsPerLocality_local_first (localKey : String) (hs : List Host) (g : Nat) :
    0 < (buildSnapshot localKey hs g).hostsPerLocality.length ∧
    (buildSnapshot localKey hs g).hostsPerLocality.head? =
      some (hostsOfLocality localKey hs) ∧
    (∀ h : Host, h ∈ hostsOfLocality localKey hs ↔ h ∈ hs ∧ h.locality = localKey) ∧
    (buildSnapshot localKey hs g).hostsPerLocality.tail =
      (localityKeys localKey hs).map (fun k => hostsOfLocality k hs) ∧
    List.Sorted (· < ·) (localityKeys localKey hs) ∧
    (∀ k : String,
      k ∈ localityKeys localKey hs ↔ k ≠ localKey ∧ ∃ h, h ∈ hs ∧ h.locality = k) := by
  refine ⟨?_, rfl, ?_, rfl, localityKeys_sorted localKey hs, fun k => mem_localityKeys⟩
  · simp [buildSnapshot, hostsPerLocality]
  · intro h
    simp [hostsOfLocality, List.mem_filter]

theorem mem_hostsAdded {oldHosts newHosts : List Host} {h : Host} :
    h ∈ hostsAdded oldHosts newHosts ↔ h ∈ newHosts ∧ h ∉ oldHosts := by
  simp [hostsAdded, List.mem_filter]

theorem mem_hostsRemoved {oldHosts newHosts : List Host} {h : Host} :
    h ∈ hostsRemoved oldHosts newHosts ↔ h ∈ oldHosts ∧ h ∉ newHosts := by
  simp [hostsRemoved, List.mem_filter]

theorem mem_notifyMembers {reg : CbRegistry} {oldHosts newHosts : List Host}
    {p : Nat × List Host × List Host} :
    p ∈ notifyMembers reg oldHosts newHosts ↔
      (p.1, false) ∈ reg ∧
        p.2 = (hostsAdded oldHosts newHosts, hostsRemoved oldHosts newHosts) := by
  simp only [notifyMembers, List.mem_map, List.mem_filter]
  constructor
  · rintro ⟨⟨i, b⟩, ⟨hmem, hb⟩, rfl⟩
    simp only [Bool.not_eq_true'] at hb
    subst hb
    exact ⟨hmem, rfl⟩
  · rintro ⟨hmem, hp⟩
    refine ⟨(p.1, false), ⟨hmem, rfl⟩, ?_⟩
    obtain ⟨p1, p2⟩ := p
    simp only at hp
    rw [hp]

theorem registry_entry_unique {reg : CbRegistry}
    (hnd : (reg.map Prod.fst).Nodup) {id : Nat} {b₁ b₂ : Bool}
    (h₁ : (id, b₁) ∈ reg) (h₂ : (id, b₂) ∈ reg) : b₁ = b₂ := by
  induction reg with
  | nil => cases h₁
  | cons e t ih =>
    rw [List.map_cons, List.nodup_cons] at hnd
    rcases List.mem_cons.mp h₁ with h₁ | h₁ <;> rcases List.mem_cons.mp h₂ with h₂ | h₂
    · exact (Prod.ext_iff.mp (h₁.trans h₂.symm)).2
    · exact absurd (List.mem_map.mpr ⟨(id, b₂), h₂, by rw [← h₁]⟩) hnd.1
    · exact absurd (List.mem_map.mpr ⟨(id, b₁), h₁, by rw [← h₂]⟩) hnd.1
    · exact ih hnd.2 h₁ h₂

theorem countP_notifyMembers_zero_of_not_mem {reg : CbRegistry}
    {oldHosts newHosts : List Host} {id : Nat} (h : id ∉ reg.map Prod.fst) :
    (notifyMembers reg oldHosts newHosts).countP (fun p => p.1 == id) = 0 := by
  refine List.countP_eq_zero.mpr ?_
  intro p hp
  have hmem : (p.1, false) ∈ reg := (mem_notifyMembers.mp hp).1
  have hid : p.1 ∈ reg.map Prod.fst := List.mem_map.mpr ⟨(p.1, false), hmem, rfl⟩
  simp only [beq_iff_eq]
  intro heq
  rw [heq] at hid
  exact h hid

theorem countP_notifyMembers_one {reg : CbRegistry} {oldHosts newHosts : List Host}
    (hnd : (reg.map Prod.fst).Nodup) {id : Nat} (hmem : (id, false) ∈ reg) :
    (notifyMembers reg oldHosts newHosts).countP (fun p => p.1 == id) = 1 := by
  induction reg with
  | nil => cases hmem
  | cons e t ih =>
    obtain ⟨j, b⟩ := e
    rw [List.map_cons, List.nodup_cons] at hnd
    rcases List.mem_cons.mp hmem with hh | hh
    · injection hh with hj hb
      rw [← hj] at hnd
      rw [← hj, ← hb]
      simp only [notifyMembers, List.filter_cons, Bool.not_false, if_true, List.map_cons,
        List.countP_cons]
      have h0 : (notifyMembers t oldHosts newHosts).countP (fun p => p.1 == id) = 0 :=
        countP_notifyMembers_zero_of_not_mem hnd.1
      simp only [notifyMembers] at h0
      rw [h0]
      simp
    · have hid : id ∈ t.map Prod.fst := List.mem_map.mpr ⟨(id, false), hh, rfl⟩
      have hji : j ≠ id := fun hj => hnd.1 (hj ▸ hid)
      have hrec := ih hnd.2 hh
      cases b with
      | true =>
          simpa [notifyMembers, List.filter_cons] using hrec
      | false =>
          simp only [notifyMembers, List.filter_cons, Bool.not_false, if_true,
            List.map_cons, List.countP_cons] at hrec ⊢
          simp [hrec, hji]

theorem countP_notifyMembers_cancelled {reg : CbRegistry}
    {oldHosts newHosts : List Host} (hnd : (reg.map Prod.fst).Nodup) {id : Nat}
    (hmem : (id, true) ∈ reg) :
    (notifyMembers reg oldHosts newHosts).countP (fun p => p.1 == id) = 0 := by
  refine List.countP_eq_zero.mpr ?_
  intro p hp
  have hfalse : (p.1, false) ∈ reg := (mem_notifyMembers.mp hp).1
  simp only [beq_iff_eq]
  intro heq
  rw [heq] at hfalse
  exact Bool.false_ne_true (registry_entry_unique hnd hfalse hmem)

/-- C4: a membership update passes callbacks exactly the identity set
differences (added = new minus old, removed = old minus new), invokes every
registered non-cancelled callback exactly once with that diff, never invokes a
cancelled one, and in particular an update from [A, B] to [A, C] reports
added = [C] and removed = [B]. -/
theorem member_update_diff_exactly_once
    (oldHosts newHosts : List Host) (reg : CbRegistry) (A B C : Host)
    (hnd : (reg.map Prod.fst).Nodup)
    (hAB : A ≠ B) (hAC : A ≠ C) (hBC : B ≠ C) :
    (∀ h : Host, h ∈ hostsAdded oldHosts newHosts ↔ h ∈ newHosts ∧ h ∉ oldHosts) ∧
    (∀ h : Host, h ∈ hostsRemoved oldHosts newHosts ↔ h ∈ oldHosts ∧ h ∉ newHosts) ∧
    (∀ id : Nat, (id, false) ∈ reg →
      (notifyMembers reg oldHosts newHosts).countP (fun p => p.1 == id) = 1) ∧
    (∀ id : Nat, (id, true) ∈ reg →
      (notifyMembers reg oldHosts newHosts).countP (fun p => p.1 == id) = 0) ∧
    (∀ p ∈ notifyMembers reg oldHosts newHosts,
      p.2 = (hostsAdded oldHosts newHosts, hostsRemoved oldHosts newHosts)) ∧
    hostsAdded [A, B] [A, C] = [C] ∧ hostsRemoved [A, B] [A, C] = [B] := by
  refine ⟨fun h => mem_hostsAdded, fun h => mem_hostsRemoved,
    fun id hmem => countP_notifyMembers_one hnd hmem,
    fun id hmem => countP_notifyMembers_cancelled hnd hmem,
    fun p hp => (mem_notifyMembers.mp hp).2, ?_, ?_⟩
  · have hCA : C ≠ A := Ne.symm hAC
    have hCB : C ≠ B := Ne.symm hBC
    simp [hostsAdded, List.filter_cons, hCA, hCB]
  · have hBA : B ≠ A := Ne.symm hAB
    simp [hostsRemoved, List.filter_cons, hBA, hBC]

/-- Witness for C4 on a concrete update from [A, B] to [A, C] with one
registered callback handle. -/
theorem member_update_diff_exactly_once_witness :
    hostsAdded [Host.mk "a" "z" 0, Host.mk "b" "z" 0]
        [Host.mk "a" "z" 0, Host.mk "c" "z" 0] = [Host.mk "c" "z" 0] ∧
    hostsRemoved [Host.mk "a" "z" 0, Host.mk "b" "z" 0]
        [Host.mk "a" "z" 0, Host.mk "c" "z" 0] = [Host.mk "b" "z" 0] ∧
    (notifyMembers [(0, false)] [Host.mk "a" "z" 0, Host.mk "b" "z" 0]
        [Host.mk "a" "z" 0, Host.mk "c" "z" 0]).countP (fun p => p.1 == 0) = 1 :=
  have T := member_update_diff_exactly_once
    [Host.mk "a" "z" 0, Host.mk "b" "z" 0]
    [Host.mk "a" "z" 0, Host.mk "c" "z" 0]
    [(0, false)] (Host.mk "a" "z" 0) (Host.mk "b" "z" 0) (Host.mk "c" "z" 0)
    (by decide) (by decide) (by decide) (by decide)
  ⟨T.2.2.2.2.2.1, T.2.2.2.2.2.2, T.2.2.1 0 (by decide)⟩

theorem cancelIds_fst (reg : CbRegistry) (ids : List Nat) :
    (cancelIds reg ids).map Prod.fst = reg.map Prod.fst := by
  rw [cancelIds, List.map_map]
  apply List.map_congr_left
  intro e _
  simp only [Function.comp_apply]
  split <;> rfl

theorem lookup_cancelIds (reg : CbRegistry) (ids : List Nat) (j : Nat) :
    (cancelIds reg ids).lookup j =
      (reg.lookup j).map (fun b => if j ∈ ids then true else b) := by
  induction reg with
  | nil => rfl
  | cons e t ih =>
    obtain ⟨k, b⟩ := e
    by_cases hk : j = k
    · subst hk
      by_cases hin : j ∈ ids <;>
        simp [cancelIds, List.lookup_cons, hin]
    · have hbeq : (j == k) = false := by simp [hk]
      by_cases hin : k ∈ ids <;>
        simp [cancelIds, List.lookup_cons, hbeq, hin] at ih ⊢ <;>
        simpa using ih

theorem roundStep_fst (effect : Nat → List Nat) (st : CbRegistry × List Nat)
    (j : Nat) :
    ((roundStep effect st j).1).map Prod.fst = st.1.map Prod.fst := by
  unfold roundStep
  split
  · simpa using cancelIds_fst st.1 (effect j)
  · rfl

theorem runIds_fst (effect : Nat → List Nat) (ids : List Nat) :
    ∀ st : CbRegistry × List Nat,
      ((runIds effect st ids).1).map Prod.fst = st.1.map Prod.fst := by
  induction ids with
  | nil => intro st; rfl
  | cons k rest ih =>
      intro st
      rw [runIds, List.foldl_cons]
      exact (ih (roundStep effect st k)).trans (roundStep_fst effect st k)

theorem roundStep_tomb {effect : Nat → List Nat} {st : CbRegistry × List Nat}
    {j : Nat} (k : Nat) (h : st.1.lookup j = some true) :
    ((roundStep effect st k).1).lookup j = some true := by
  unfold roundStep
  split
  · simp only
    rw [lookup_cancelIds, h]
    simp
  · exact h

theorem runIds_tomb (effect : Nat → List Nat) {j : Nat} (ids : List Nat) :
    ∀ st : CbRegistry × List Nat, st.1.lookup j = some true →
      ((runIds effect st ids).1).lookup j = some true := by
  induction ids with
  | nil => intro st h; exact h
  | cons k rest ih =>
      intro st h
      rw [runIds, List.foldl_cons]
      exact ih (roundStep effect st k) (roundStep_tomb k h)

theorem runIds_log_extend (effect : Nat → List Nat) (ids : List Nat) :
    ∀ st : CbRegistry × List Nat,
      ∃ extra : List Nat, (runIds effect st ids).2 = st.2 ++ extra ∧
        extra.Sublist ids := by
  induction ids with
  | nil => intro st; exact ⟨[], by simp [runIds], List.nil_sublist _⟩
  | cons k rest ih =>
      intro st
      obtain ⟨extra, hlog, hsub⟩ := ih (roundStep effect st k)
      rw [runIds, List.foldl_cons] at *
      unfold roundStep at hlog ⊢
      revert hlog
      split
      · intro hlog
        exact ⟨k :: extra, by simpa [List.append_assoc] using hlog, hsub.cons₂ k⟩
      · intro hlog
        exact ⟨extra, hlog, hsub.cons k⟩

theorem runIds_tomb_log (effect : Nat → List Nat) {j : Nat} (ids : List Nat) :
    ∀ st : CbRegistry × List Nat, st.1.lookup j = some true →
      (j ∈ (runIds effect st ids).2 ↔ j ∈ st.2) := by
  induction ids with
  | nil => intro st _; exact Iff.rfl
  | cons k rest ih =>
      intro st h
      rw [runIds, List.foldl_cons]
      have hiter := ih (roundStep effect st k) (roundStep_tomb k h)
      rw [runIds] at hiter
      refine hiter.trans ?_
      unfold roundStep
      split
      · rename_i heq
        have hkj : k ≠ j := by
          intro hkj
          rw [hkj, h] at heq
          cases heq
        simp [List.mem_append, hkj, Ne.symm hkj]
      · exact Iff.rfl

theorem runIds_decomp (effect : Nat → List Nat) (ids : List Nat) :
    ∀ (st : CbRegistry × List Nat) (i : Nat),
      i ∈ (runIds effect st ids).2 → i ∉ st.2 →
      ∃ pre post : List Nat, ids = pre ++ i :: post ∧
        ((runIds effect st pre).1).lookup i = some false ∧
        runIds effect st ids =
          runIds effect (roundStep effect (runIds effect st pre) i) post := by
  induction ids with
  | nil =>
      intro st i hmem hnot
      exact absurd hmem hnot
  | cons k rest ih =>
      intro st i hmem hnot
      by_cases hcase : k = i ∧ st.1.lookup i = some false
      · obtain ⟨rfl, hlk⟩ := hcase
        refine ⟨[], rest, rfl, ?_, ?_⟩
        · simpa [runIds] using hlk
        · simp only [runIds, List.foldl_cons, List.foldl_nil]
      · have hstep : i ∉ (roundStep effect st k).2 := by
          unfold roundStep
          split
          · rename_i heq
            have hki : k ≠ i := by
              intro hki
              exact hcase ⟨hki, hki ▸ heq⟩
            simp only
            intro hmem2
            rcases List.mem_append.mp hmem2 with h | h
            · exact hnot h
            · exact hki (List.mem_singleton.mp h).symm
          · exact hnot
        have hmem' : i ∈ (runIds effect (roundStep effect st k) rest).2 := by
          rw [runIds, List.foldl_cons] at hmem
          exact hmem
        obtain ⟨pre, post, hids, hlkp, heqn⟩ := ih (roundStep effect st k) i hmem' hstep
        refine ⟨k :: pre, post, by rw [hids, List.cons_append], ?_, ?_⟩
        · rw [runIds, List.foldl_cons]
          exact hlkp
        · rw [runIds, List.foldl_cons]
          exact heqn

theorem append_cons_nodup_unique {x : Nat} :
    ∀ {a : List Nat} {c b d : List Nat}, a ++ x :: b = c ++ x :: d →
      (a ++ x :: b).Nodup → a = c ∧ b = d := by
  intro a
  induction a with
  | nil =>
      intro c b d h hnd
      cases c with
      | nil =>
          simp only [List.nil_append] at h
          injection h with _ h2
          exact ⟨rfl, h2⟩
      | cons c₀ c' =>
          simp only [List.nil_append, List.cons_append] at h hnd
          injection h with h1 h2
          rw [List.nodup_cons] at hnd
          exfalso
          apply hnd.1
          rw [h2]
          exact List.mem_append.mpr (Or.inr (List.mem_cons_self x _))
  | cons a₀ a' ih =>
      intro c b d h hnd
      cases c with
      | nil =>
          simp only [List.cons_append, List.nil_append] at h hnd
          injection h with h1 h2
          rw [List.nodup_cons] at hnd
          exfalso
          apply hnd.1
          rw [h1]
          exact List.mem_append.mpr (Or.inr (List.mem_cons_self x b))
      | cons c₀ c' =>
          simp only [List.cons_append] at h hnd
          injection h with h1 h2
          rw [List.nodup_cons] at hnd
          obtain ⟨hac, hbd⟩ := ih h2 hnd.2
          refine ⟨?_, hbd⟩
          rw [h1, hac]

/-- C7: cancelling a handle from inside another callback during the same
notification round prevents any further invocation of the cancelled callback,
in that round and in the following round; the registry keeps every entry in
order (tombstone-and-skip, no mid-pass erase) and the round's invocation log
visits the registered handles in order, at most once each. -/
theorem cancelled_callback_not_invoked (effect : Nat → List Nat)
    (reg : CbRegistry) (i j : Nat) (l1 l2 : List Nat)
    (hnd : (reg.map Prod.fst).Nodup) (hj : j ∈ effect i) (hji : j ≠ i)
    (hsplit : (runRound effect reg).2 = l1 ++ i :: l2) :
    j ∉ l2 ∧
    j ∉ (runRound effect ((runRound effect reg).1)).2 ∧
    ((runRound effect reg).1).map Prod.fst = reg.map Prod.fst ∧
    ((runRound effect reg).2).Sublist (reg.map Prod.fst) := by
  have hdom : ((runRound effect reg).1).map Prod.fst = reg.map Prod.fst :=
    runIds_fst effect (reg.map Prod.fst) (reg, [])
  obtain ⟨extra, hlog, hsub⟩ :=
    runIds_log_extend effect (reg.map Prod.fst) (reg, [])
  have hlogex : (runRound effect reg).2 = extra := by simpa [runRound] using hlog
  have hlogsub : ((runRound effect reg).2).Sublist (reg.map Prod.fst) := by
    rw [hlogex]
    exact hsub
  obtain ⟨extraN, hlogN, hsubN⟩ :=
    runIds_log_extend effect (((runRound effect reg).1).map Prod.fst)
      ((runRound effect reg).1, [])
  have hnextex : (runRound effect ((runRound effect reg).1)).2 = extraN := by
    simpa [runRound] using hlogN
  have hnextsub :
      ((runRound effect ((runRound effect reg).1)).2).Sublist (reg.map Prod.fst) := by
    rw [hnextex, ← hdom]
    exact hsubN
  by_cases hjm : j ∈ reg.map Prod.fst
  · have hinv : i ∈ (runRound effect reg).2 := by
      rw [hsplit]
      exact List.mem_append.mpr (Or.inr (List.mem_cons_self i l2))
    obtain ⟨pre, post, hids, hlkp, heq⟩ :=
      runIds_decomp effect (reg.map Prod.fst) (reg, []) i
        (by rwa [runRound] at hinv) (by simp)
    have hstep : roundStep effect (runIds effect (reg, []) pre) i =
        (cancelIds (runIds effect (reg, []) pre).1 (effect i),
         (runIds effect (reg, []) pre).2 ++ [i]) := by
      unfold roundStep
      rw [hlkp]
    have hjdom : j ∈ ((runIds effect (reg, []) pre).1).map Prod.fst := by
      rw [runIds_fst]
      exact hjm
    obtain ⟨b, hb⟩ : ∃ b, ((runIds effect (reg, []) pre).1).lookup j = some b := by
      rcases List.mem_map.mp hjdom with ⟨p, hp, hpf⟩
      have hisome : (((runIds effect (reg, []) pre).1).lookup j).isSome :=
        List.lookup_isSome_iff.mpr ⟨p, hp, by simp [hpf]⟩
      exact Option.isSome_iff_exists.mp hisome
    have hjt : ((roundStep effect (runIds effect (reg, []) pre) i).1).lookup j =
        some true := by
      rw [hstep]
      simp only
      rw [lookup_cancelIds, hb]
      simp [hj]
    have hiff :=
      runIds_tomb_log effect post (roundStep effect (runIds effect (reg, []) pre) i) hjt
    obtain ⟨extra2, hlog2, hsub2⟩ :=
      runIds_log_extend effect post (roundStep effect (runIds effect (reg, []) pre) i)
    have hlogeq : (runRound effect reg).2 =
        (runIds effect (reg, []) pre).2 ++ (i :: extra2) := by
      rw [runRound, heq, hlog2, hstep]
      simp [List.append_assoc]
    have hlognd : ((runRound effect reg).2).Nodup := hnd.sublist hlogsub
    have hkey : (runIds effect (reg, []) pre).2 = l1 ∧ extra2 = l2 := by
      apply append_cons_nodup_unique
      · rw [← hlogeq, hsplit]
      · rw [← hlogeq]
        exact hlognd
    refine ⟨?_, ?_, hdom, hlogsub⟩
    · intro hjl2
      have hjex : j ∈ extra2 := hkey.2 ▸ hjl2
      have hjlog : j ∈ (runRound effect reg).2 := by
        rw [hlogeq]
        exact List.mem_append.mpr (Or.inr (List.mem_cons.mpr (Or.inr hjex)))
      have hjstep : j ∈ (roundStep effect (runIds effect (reg, []) pre) i).2 := by
        apply hiff.mp
        rw [runRound, heq] at hjlog
        exact hjlog
      have hjmid : j ∈ (runIds effect (reg, []) pre).2 := by
        rw [hstep] at hjstep
        simp only at hjstep
        rcases List.mem_append.mp hjstep with h | h
        · exact h
        · exact absurd (List.mem_singleton.mp h) hji
      have hjl1 : j ∈ l1 := hkey.1 ▸ hjmid
      rw [hsplit] at hlognd
      rcases List.nodup_append.mp hlognd with ⟨_, _, hdisj⟩
      exact hdisj hjl1 (List.mem_cons.mpr (Or.inr hjl2))
    · have hregT : ((runRound effect reg).1).lookup j = some true := by
        rw [runRound, heq]
        exact runIds_tomb effect post _ hjt
      have h0 := runIds_tomb_log effect (((runRound effect reg).1).map Prod.fst)
        (((runRound effect reg).1), ([] : List Nat)) hregT
      intro hj2
      rw [runRound] at hj2
      have hfin := h0.mp hj2
      simp at hfin
  · refine ⟨?_, ?_, hdom, hlogsub⟩
    · intro hj2
      apply hjm
      refine hlogsub.subset ?_
      rw [hsplit]
      exact List.mem_append.mpr (Or.inr (List.mem_cons.mpr (Or.inr hj2)))
    · intro hj2
      exact hjm (hnextsub.subset hj2)

/-- Witness for C7: handle 0's callback cancels handle 1 during the round;
handle 1 is never invoked in that round nor in the following one. -/
theorem cancelled_callback_not_invoked_witness :
    1 ∉ ([] : List Nat) ∧
    1 ∉ (runRound (fun k => if k = 0 then [1] else [])
          ((runRound (fun k => if k = 0 then [1] else [])
            [(0, false), (1, false)]).1)).2 ∧
    ((runRound (fun k => if k = 0 then [1] else [])
        [(0, false), (1, false)]).1).map Prod.fst =
      ([(0, false), (1, false)] : CbRegistry).map Prod.fst ∧
    ((runRound (fun k => if k = 0 then [1] else [])
        [(0, false), (1, false)]).2).Sublist
      (([(0, false), (1, false)] : CbRegistry).map Prod.fst) :=
  cancelled_callback_not_invoked (fun k => if k = 0 then [1] else [])
    [(0, false), (1, false)] 0 1 [] [] (by decide) (by decide) (by decide)
    (by decide)

theorem clusterStep_inv (st : ClusterState) (e : ClusterEvent) (reg : List Nat)
    (h1 : st.fired = if st.phase = InitState.Initialized then reg else [])
    (h2 : st.pending = if st.phase = InitState.Initialized then [] else reg) :
    ((clusterStep st e).fired =
      if (clusterStep st e).phase = InitState.Initialized then reg ++ eventRegId e
      else []) ∧
    ((clusterStep st e).pending =
      if (clusterStep st e).phase = InitState.Initialized then []
      else reg ++ eventRegId e) := by
  rcases st with ⟨ph, pend, fr⟩
  simp only at h1 h2
  cases e <;> cases ph <;> simp_all [clusterStep, eventRegId]

theorem runCluster_inv (events : List ClusterEvent) :
    ∀ (st : ClusterState) (reg : List Nat),
      st.fired = (if st.phase = InitState.Initialized then reg else []) →
      st.pending = (if st.phase = InitState.Initialized then [] else reg) →
      ((events.foldl clusterStep st).fired =
        if (events.foldl clusterStep st).phase = InitState.Initialized
        then reg ++ regIds events else []) ∧
      ((events.foldl clusterStep st).pending =
        if (events.foldl clusterStep st).phase = InitState.Initialized
        then [] else reg ++ regIds events) := by
  induction events with
  | nil =>
      intro st reg h1 h2
      constructor <;> simp [regIds, h1, h2]
  | cons e es ih =>
      intro st reg h1 h2
      rw [List.foldl_cons]
      have hstep := clusterStep_inv st e reg h1 h2
      have hrec := ih (clusterStep st e) (reg ++ eventRegId e) hstep.1 hstep.2
      simpa [regIds, List.append_assoc] using hrec

theorem runCluster_characterization (events : List ClusterEvent) :
    ((runCluster events).fired =
      if (runCluster events).phase = InitState.Initialized then regIds events
      else []) ∧
    ((runCluster events).pending =
      if (runCluster events).phase = InitState.Initialized then []
      else regIds events) := by
  have h := runCluster_inv events ⟨.Uninit, [], []⟩ [] (by simp) (by simp)
  simpa [runCluster] using h

theorem clusterStep_terminal (st : ClusterState) (e : ClusterEvent)
    (h : st.phase = InitState.Initialized) :
    (clusterStep st e).phase = InitState.Initialized := by
  rcases st with ⟨ph, pend, fr⟩
  simp only at h
  subst h
  cases e <;> simp [clusterStep]

theorem foldl_clusterStep_terminal (events : List ClusterEvent) :
    ∀ st : ClusterState, st.phase = InitState.Initialized →
      (events.foldl clusterStep st).phase = InitState.Initialized := by
  induction events with
  | nil => intro st h; simpa using h
  | cons e es ih =>
      intro st h
      rw [List.foldl_cons]
      exact ih _ (clusterStep_terminal st e h)

theorem countP_id_eq_one {l : List Nat} (hnd : l.Nodup) {id : Nat} (h : id ∈ l) :
    l.countP (fun x => x == id) = 1 := by
  induction l with
  | nil => cases h
  | cons a t ih =>
    rw [List.nodup_cons] at hnd
    rcases List.mem_cons.mp h with rfl | hmem
    · have h0 : t.countP (fun x => x == id) = 0 := by
        refine List.countP_eq_zero.mpr ?_
        intro x hx
        simp only [beq_iff_eq]
        intro he
        exact hnd.1 (he ▸ hx)
      rw [List.countP_cons]
      simp [h0]
    · have hne : a ≠ id := fun he => hnd.1 (he ▸ hmem)
      rw [List.countP_cons]
      simp [ih hnd.2 hmem, hne]

/-- C6: along every lifecycle trace with distinct registered handles, a
registered initialized-callback fires exactly once when the cluster reaches
Initialized (also when registered after that point), fires never while it has
not, Initialized is terminal under arbitrary further events, and membership
churn re-fires nothing. -/
theorem one_shot_init_callback (events : List ClusterEvent)
    (hnd : (regIds events).Nodup) (id : Nat) (hreg : id ∈ regIds events) :
    ((runCluster events).phase = InitState.Initialized →
      (runCluster events).fired.countP (fun x => x == id) = 1 ∧
      (runCluster events).pending = []) ∧
    ((runCluster events).phase ≠ InitState.Initialized →
      (runCluster events).fired.countP (fun x => x == id) = 0 ∧
      id ∈ (runCluster events).pending) ∧
    (∀ more : List ClusterEvent,
      (runCluster events).phase = InitState.Initialized →
        (runCluster (events ++ more)).phase = InitState.Initialized) ∧
    (runCluster (events ++ [ClusterEvent.membershipChange])).fired =
      (runCluster events).fired := by
  have hchar := runCluster_characterization events
  refine ⟨?_, ?_, ?_, ?_⟩
  · intro hph
    rw [hph] at hchar
    simp only [if_pos rfl] at hchar
    exact ⟨hchar.1 ▸ countP_id_eq_one hnd hreg, hchar.2⟩
  · intro hph
    simp only [if_neg hph] at hchar
    rcases hchar with ⟨h1, h2⟩
    rw [h1, h2]
    exact ⟨rfl, hreg⟩
  · intro more hph
    rw [runCluster, List.foldl_append]
    exact foldl_clusterStep_terminal more _ hph
  · rw [runCluster, List.foldl_append]
    rfl

/-- Witness for C6: registration after the cluster reaches Initialized still
fires exactly once. -/
theorem one_shot_init_callback_witness :
    ((runCluster [ClusterEvent.initCall, ClusterEvent.resolved,
        ClusterEvent.registerCb 7]).phase = InitState.Initialized →
      (runCluster [ClusterEvent.initCall, ClusterEvent.resolved,
        ClusterEvent.registerCb 7]).fired.countP (fun x => x == 7) = 1 ∧
      (runCluster [ClusterEvent.initCall, ClusterEvent.resolved,
        ClusterEvent.registerCb 7]).pending = []) ∧
    ((runCluster [ClusterEvent.initCall, ClusterEvent.resolved,
        ClusterEvent.registerCb 7]).phase ≠ InitState.Initialized →
      (runCluster [ClusterEvent.initCall, ClusterEvent.resolved,
        ClusterEvent.registerCb 7]).fired.countP (fun x => x == 7) = 0 ∧
      7 ∈ (runCluster [ClusterEvent.initCall, ClusterEvent.resolved,
        ClusterEvent.registerCb 7]).pending) ∧
    (∀ more : List ClusterEvent,
      (runCluster [ClusterEvent.initCall, ClusterEvent.resolved,
        ClusterEvent.registerCb 7]).phase = InitState.Initialized →
        (runCluster ([ClusterEvent.initCall, ClusterEvent.resolved,
          ClusterEvent.registerCb 7] ++ more)).phase = InitState.Initialized) ∧
    (runCluster ([ClusterEvent.initCall, ClusterEvent.resolved,
        ClusterEvent.registerCb 7] ++ [ClusterEvent.membershipChange])).fired =
      (runCluster [ClusterEvent.initCall, ClusterEvent.resolved,
        ClusterEvent.registerCb 7]).fired :=
  one_shot_init_callback
    [ClusterEvent.initCall, ClusterEvent.resolved, ClusterEvent.registerCb 7]
    (by decide) 7 (by decide)

/-- C5: in every reachable HostSet state the four views carry one and the same
publication generation — every update step replaces all four views together as
one composite built from a single host list — so a sequence of reads between
two update steps never mixes two generations. -/
theorem views_single_generation (st : HostSetState) (h : ReachableHostSet st) :
    ((readHosts st).1 = (readHealthyHosts st).1 ∧
     (readHosts st).1 = (readHostsPerLocality st).1 ∧
     (readHosts st).1 = (readHealthyHostsPerLocality st).1) ∧
    ∃ hs : List Host, st.current = buildSnapshot st.localKey hs st.current.gen := by
  induction h with
  | base localKey => exact ⟨⟨rfl, rfl, rfl⟩, [], rfl⟩
  | step st newHosts _ _ => exact ⟨⟨rfl, rfl, rfl⟩, newHosts, rfl⟩

/-- Witness for C5 at a freshly constructed HostSet. -/
theorem views_single_generation_witness :
    ((readHosts (initialHostSet "zone-a")).1 =
        (readHealthyHosts (initialHostSet "zone-a")).1 ∧
     (readHosts (initialHostSet "zone-a")).1 =
        (readHostsPerLocality (initialHostSet "zone-a")).1 ∧
     (readHosts (initialHostSet "zone-a")).1 =
        (readHealthyHostsPerLocality (initialHostSet "zone-a")).1) ∧
    ∃ hs : List Host,
      (initialHostSet "zone-a").current =
        buildSnapshot (initialHostSet "zone-a").localKey hs
          (initialHostSet "zone-a").current.gen :=
  views_single_generation (initialHostSet "zone-a") (ReachableHostSet.base "zone-a")

end Upstream

namespace RateLimit

/-- C8: referencing a cluster name unknown to the cluster manager fails
synchronously at construction time with a configuration exception naming the
cluster, and construction for a known cluster name succeeds. -/
theorem grpcFactory_unknown_cluster_error
    (config : RateLimitServiceConfig) (cm : ClusterManager) :
    (config.cluster_name ∉ cm.knownClusters →
      mkGrpcFactoryImpl config cm =
        Except.error ⟨"unknown rate limit service cluster " ++ config.cluster_name⟩) ∧
    (config.cluster_name ∈ cm.knownClusters →
      mkGrpcFactoryImpl config cm = Except.ok ⟨config.cluster_name⟩) := by
  constructor
  · intro h
    simp [mkGrpcFactoryImpl, h]
  · intro h
    simp [mkGrpcFactoryImpl, h]

/-- Witness for C8: an unknown name fails with the configuration error, a
known name succeeds. -/
theorem grpcFactory_unknown_cluster_error_witness :
    mkGrpcFactoryImpl ⟨"other"⟩ ⟨["rl"]⟩ =
      Except.error ⟨"unknown rate limit service cluster " ++ "other"⟩ ∧
    mkGrpcFactoryImpl ⟨"rl"⟩ ⟨["rl"]⟩ = Except.ok ⟨"rl"⟩ :=
  ⟨(grpcFactory_unknown_cluster_error ⟨"other"⟩ ⟨["rl"]⟩).1 (by decide),
   (grpcFactory_unknown_cluster_error ⟨"rl"⟩ ⟨["rl"]⟩).2 (by decide)⟩

end RateLimit

end Envoy
